import Mathlib

/-!
Verification of the two file-comparison utilities `compare_files.py` and
`find_missing.py`.  Python strings are embedded as `List Char`; the two
`re.sub` calls are embedded as left-to-right, non-overlapping scanning
functions (`sub1`, `sub2`) that reproduce the Python `re` engine's
behaviour on the patterns `(.)([A-Z][a-z]+)` and `([a-z0-9])([A-Z])`.
`sub1` is written with an explicit fuel argument so that it is
structurally recursive (hence kernel-computable); the fuel never runs
out when it is at least the length of the string, which the wrapper
guarantees and `sub1F_irrel` proves irrelevant.
-/

namespace NeoCppAudit

/-- ASCII class `[A-Z]` of the regular expressions in the source. -/
def asciiUpper (c : Char) : Bool := 65 ≤ c.toNat && c.toNat ≤ 90

/-- ASCII class `[a-z]` of the regular expressions in the source. -/
def asciiLower (c : Char) : Bool := 97 ≤ c.toNat && c.toNat ≤ 122

/-- ASCII class `[a-z0-9]` of the second regular expression. -/
def asciiLowerDigit (c : Char) : Bool :=
  asciiLower c || (48 ≤ c.toNat && c.toNat ≤ 57)

/-- Does the list start with an ASCII lowercase letter?  (The `[a-z]+`
part of the first pattern needs at least one lowercase letter.) -/
def lowerHead : List Char → Bool
  | c :: _ => asciiLower c
  | [] => false

/-- Does the list start with an ASCII uppercase letter? -/
def upperHead : List Char → Bool
  | c :: _ => asciiUpper c
  | [] => false

/-- Would the first pattern match at this position as group 2 onward:
an uppercase letter followed by at least one lowercase letter? -/
def matchHead : List Char → Bool
  | d :: tail => asciiUpper d && lowerHead tail
  | [] => false

/-- Fuelled core of the first `re.sub`: scan left to right; at each
position try to match any non-newline character, then an uppercase
letter, then a maximal nonempty run of lowercase letters; on a match
insert `_` after the first character and resume scanning after the
matched text. -/
def sub1F : Nat → List Char → List Char
  | 0, s => s
  | _ + 1, [] => []
  | _ + 1, [c] => [c]
  | fuel + 1, c1 :: c2 :: rest =>
    if (c1 != '\n') && asciiUpper c2 && lowerHead rest then
      c1 :: '_' :: c2 :: (rest.takeWhile asciiLower ++ sub1F fuel (rest.dropWhile asciiLower))
    else
      c1 :: sub1F fuel (c2 :: rest)

/-- Embedding of `re.sub('(.)([A-Z][a-z]+)', r'\1_\2', s)`. -/
def sub1 (s : List Char) : List Char := sub1F s.length s

/-- Embedding of `re.sub('([a-z0-9])([A-Z])', r'\1_\2', s)`:
scan left to right; at a lowercase-or-digit character immediately
followed by an uppercase letter, insert `_` between them and resume
after the uppercase letter. -/
def sub2 : List Char → List Char
  | c1 :: c2 :: rest =>
    if asciiLowerDigit c1 && asciiUpper c2 then
      c1 :: '_' :: c2 :: sub2 rest
    else
      c1 :: sub2 (c2 :: rest)
  | [c] => [c]
  | [] => []

/-- Modelled from the spec: pass (b) read declaratively — insert an
underscore before every uppercase letter that immediately follows a
lowercase letter or digit (every qualifying adjacent pair, decided on
the original string). -/
def insB : List Char → List Char
  | c1 :: c2 :: rest =>
    (if asciiLowerDigit c1 && asciiUpper c2 then [c1, '_'] else [c1]) ++ insB (c2 :: rest)
  | [c] => [c]
  | [] => []

/-- Modelled from the spec: pass (a) read declaratively — insert an
underscore before every uppercase letter that is followed by at least one
lowercase letter and is preceded by any (non-newline) character, all
positions decided on the original string. -/
def specPassA : List Char → List Char
  | c1 :: c2 :: rest =>
    (if (c1 != '\n') && asciiUpper c2 && lowerHead rest then [c1, '_'] else [c1])
      ++ specPassA (c2 :: rest)
  | [c] => [c]
  | [] => []

/-- What declarative pass (a) appends after a maximal lowercase run:
an underscore exactly when the rest starts with a fresh match. -/
def passAStep (r : List Char) : List Char :=
  if matchHead r = true then '_' :: specPassA r else specPassA r

/-- What declarative pass (b) appends after a maximal lowercase run:
an underscore exactly when the rest starts with an uppercase letter. -/
def insBStep (x : List Char) : List Char :=
  if upperHead x = true then '_' :: insB x else insB x

/-- Embedding of Python `str.lower()` (ASCII letters; the regular
expressions in the source only distinguish ASCII). -/
def lowerL (s : List Char) : List Char := s.map Char.toLower

/-- The camel-case-to-snake-case transform of both utilities:
`re.sub` pass 1, then pass 2, then `.lower()`. -/
def camelToSnake (s : List Char) : List Char := lowerL (sub2 (sub1 s))

/-- The spec-side canonical-name transform: declarative pass (a), then
declarative pass (b), then lowercasing. -/
def specSnake (s : List Char) : List Char := lowerL (insB (specPassA s))

/-! ### POSIX path operations used through `os.path` -/

/-- Embedding of `os.path.basename` (POSIX): the part of the path after
the last `'/'`. -/
def basename (p : List Char) : List Char :=
  (p.reverse.takeWhile (fun c => c != '/')).reverse

/-- Embedding of `os.path.dirname` (POSIX): everything up to the last
`'/'`; a nonempty result that is not all slashes has its trailing
slashes stripped. -/
def dirname (p : List Char) : List Char :=
  let head := (p.reverse.dropWhile (fun c => c != '/')).reverse
  if head = [] then []
  else if head.all (fun c => c == '/') then head
  else (head.reverse.dropWhile (fun c => c == '/')).reverse

/-- Embedding of `os.path.splitext` (POSIX): split at the last dot of
the base name, unless every character of the base name before that dot
is itself a dot (leading dots do not start an extension). -/
def splitext (p : List Char) : List Char × List Char :=
  let rb := (basename p).reverse
  let pre := rb.takeWhile (fun c => c != '.')
  if pre.length = rb.length then (p, [])
  else
    let extLen := pre.length + 1
    if (rb.drop extLen).any (fun c => c != '.') then
      (p.take (p.length - extLen), p.drop (p.length - extLen))
    else (p, [])

/-- Embedding of the Python string operator `in`: contiguous substring
containment (the empty string is contained in everything). -/
def isSubstr : List Char → List Char → Bool
  | n, h =>
    n.isPrefixOf h ||
      match h with
      | [] => false
      | _ :: t => isSubstr n t

/-- Split a string at the first occurrence of `sep`, returning the text
before and after it, or `none` if `sep` does not occur. -/
def splitFirst (sep : List Char) : List Char → Option (List Char × List Char)
  | [] => if sep.isPrefixOf [] then some ([], []) else none
  | c :: t =>
    if sep.isPrefixOf (c :: t) then some ([], (c :: t).drop sep.length)
    else (splitFirst sep t).map (fun ba => (c :: ba.1, ba.2))

/-- Fuelled core of Python `str.split(sep)` for a nonempty separator:
repeatedly split off the text before the first occurrence of `sep`.
The fuel never runs out when it is at least the length of the string
plus one (`pySplitF_irrel`). -/
def pySplitF : Nat → List Char → List Char → List (List Char)
  | 0, _, s => [s]
  | fuel + 1, sep, s =>
    match splitFirst sep s with
    | none => [s]
    | some ba => ba.1 :: pySplitF fuel sep ba.2

/-- Embedding of Python `str.split(sep)` (nonempty `sep`). -/
def pySplit (sep s : List Char) : List (List Char) := pySplitF (s.length + 1) sep s

/-- Embedding of `os.path.join(root, file)` (POSIX, two arguments). -/
def joinPath (root file : List Char) : List Char :=
  if file.head? = some '/' then file
  else if root = [] || root.getLast? = some '/' then root ++ file
  else root ++ '/' :: file

/-- Spec-side: everything after the first occurrence of `sep` (the
whole string when `sep` does not occur). -/
def afterFirstOcc (sep s : List Char) : List Char :=
  match splitFirst sep s with
  | some ba => ba.2
  | none => s

/-- Spec-side: the portion of the string strictly between the first and
second occurrences of `sep`; when `sep` occurs only once, this is the
whole portion after the first occurrence. -/
def betweenFirstTwo (sep s : List Char) : List Char :=
  match splitFirst sep (afterFirstOcc sep s) with
  | some ba => ba.1
  | none => afterFirstOcc sep s

/-! ### `find_missing.py` -/

/-- `find_missing.swift_file_to_cpp_name`: base name, extension
stripped, camel-case converted to snake case. -/
def swift_file_to_cpp_name (swift_path : List Char) : List Char :=
  camelToSnake (splitext (basename swift_path)).1

/-- The candidate names of `find_missing.main`: base name with the
extension stripped — the original letter case is kept. -/
def fm_candidate_name (f : List Char) : List Char := (splitext (basename f)).1

/-- The missing-headers accumulation of `find_missing.main`: a Swift
file is kept when its converted name is a substring of no candidate
header name. -/
def fm_missing (swift_files cpp_files : List (List Char)) :
    List (List Char × List Char) :=
  swift_files.filterMap (fun f =>
    let name := swift_file_to_cpp_name f
    if (cpp_files.map fm_candidate_name).any (fun cand => isSubstr name cand) then
      none
    else some (f, name))

/-- Decimal rendering of a count, as Python `f"{n}"` prints it. -/
def natStr (n : Nat) : List Char := (Nat.repr n).toList

/-- The report of `find_missing.main` (lines 54-63): two titles, at most
ten rank-prefixed entries each, and a total line carrying the full list
lengths.  Each `print` with a leading newline contributes an empty line. -/
def find_missing_report (mh ms : List (List Char × List Char)) : List (List Char) :=
  ("Top 10 Missing Headers:".toList
      :: (mh.take 10).enum.map (fun e =>
        natStr (e.1 + 1) ++ ". ".toList ++ basename e.2.1 ++ " -> ".toList
          ++ e.2.2 ++ ".hpp".toList))
    ++ ("".toList :: "Top 10 Missing Sources:".toList
      :: (ms.take 10).enum.map (fun e =>
        natStr (e.1 + 1) ++ ". ".toList ++ basename e.2.1 ++ " -> ".toList
          ++ e.2.2 ++ ".cpp".toList))
    ++ ["".toList,
      "Total: ".toList ++ natStr mh.length ++ " missing headers, ".toList
        ++ natStr ms.length ++ " missing sources".toList]

/-- Spec-side shape of one printed missing-file line: a 1-based rank,
the source base name, and the expected translated file name. -/
def rankLine (rank : Nat) (f name ext : List Char) : List Char :=
  natStr rank ++ ". ".toList ++ basename f ++ " -> ".toList ++ name ++ ext

/-! ### `compare_files.py` -/

/-- First path marker recognized by `compare_files.swift_to_cpp_name`. -/
def marker1 : List Char := "/Sources/NeoSwift/".toList

/-- Second path marker recognized by `compare_files.swift_to_cpp_name`. -/
def marker2 : List Char := "/Tests/".toList

/-- `compare_files.swift_to_cpp_name`: the pair (relative directory,
snake-case name), or `none` when neither marker occurs in the path
(the Python function returns `(None, None)` there).  The directory is
`os.path.dirname` of element 1 of the Python `split` on the marker. -/
def swift_to_cpp_name (swift_path : List Char) : Option (List Char × List Char) :=
  let snake := camelToSnake (splitext (basename swift_path)).1
  if isSubstr marker1 swift_path then
    some (dirname ((pySplit marker1 swift_path).getD 1 []), snake)
  else if isSubstr marker2 swift_path then
    some (dirname ((pySplit marker2 swift_path).getD 1 []), snake)
  else none

/-- The guard of the loop in `compare_files.main`: a file is processed
only when `swift_to_cpp_name` found a marker and both the directory and
the name are truthy (nonempty) strings. -/
def compareEntry (f : List Char) : Option (List Char × List Char) :=
  match swift_to_cpp_name f with
  | none => none
  | some dn => if dn.1 = [] ∨ dn.2 = [] then none else some dn

/-- One containment check of `compare_files.main`: does any candidate
file have the name as a substring of its lowercased base name? -/
def nameMatches (name : List Char) (files : List (List Char)) : Bool :=
  files.any (fun h => isSubstr name (lowerL (basename h)))

/-- The missing-files accumulation of `compare_files.main` (used once
with the headers and once with the sources): tuples
(swift file, directory, name) of processed files with no containment
match. -/
def cf_missing (swift_files cpp_files : List (List Char)) :
    List (List Char × List Char × List Char) :=
  swift_files.filterMap (fun f =>
    match compareEntry f with
    | none => none
    | some dn =>
      if nameMatches dn.2 cpp_files then none else some (f, dn.1, dn.2))

/-! ### Directory scanning and the entry points -/

/-- Modelled from Python's documented `os.walk` semantics: a file-system
oracle yielding, per root directory, the traversal's (directory, file
names) pairs.  With the default `onerror=None` the errors raised by
`os.scandir` on a missing or unreadable root are swallowed, so walking
such a root yields nothing; the field `walk_missing` records exactly
that documented behaviour. -/
structure FileSystem where
  exists_dir : List Char → Bool
  walk : List Char → List (List Char × List (List Char))
  walk_missing : ∀ d, exists_dir d = false → walk d = []

/-- `get_files` (identical in both programs): all walked files whose
name ends with the extension, joined to their directory. -/
def get_files (fs : FileSystem) (directory extension : List Char) : List (List Char) :=
  (fs.walk directory).flatMap (fun rf =>
    (rf.2.filter (fun f => extension.isSuffixOf f)).map (fun f => joinPath rf.1 f))

/-- The usage line printed by `compare_files.main`. -/
def usageLine : List Char :=
  "Usage: python compare_files.py <swift_dir> <cpp_include_dir> <cpp_src_dir> [cpp_test_dir]".toList

/-- The report lines of `compare_files.main` (lines 84-95). -/
def compare_files_report (swift_files cpp_headers cpp_sources cpp_tests : List (List Char)) :
    List (List Char) :=
  let mh := cf_missing swift_files cpp_headers
  let ms := cf_missing swift_files cpp_sources
  ("Total Swift files: ".toList ++ natStr swift_files.length)
    :: ("Total C++ headers: ".toList ++ natStr cpp_headers.length)
    :: ("Total C++ sources: ".toList ++ natStr cpp_sources.length)
    :: ("Total C++ tests: ".toList ++ natStr cpp_tests.length)
    :: "".toList
    :: "Missing C++ headers:".toList
    :: (mh.map (fun e => "  ".toList ++ e.1 ++ " -> ".toList ++ e.2.1
        ++ "/".toList ++ e.2.2 ++ ".hpp".toList))
    ++ "".toList
    :: "Missing C++ sources:".toList
    :: (ms.map (fun e => "  ".toList ++ e.1 ++ " -> ".toList ++ e.2.1
        ++ "/".toList ++ e.2.2 ++ ".cpp".toList))

/-- `compare_files.main` as a function from the argument vector
(`sys.argv`, program name included) and the file system to the pair
(standard-output lines, exit status). -/
def compare_files_main (argv : List (List Char)) (fs : FileSystem) :
    List (List Char) × Nat :=
  if argv.length < 4 then ([usageLine], 1)
  else
    let swift_files := get_files fs (argv.getD 1 []) ".swift".toList
    let cpp_headers := get_files fs (argv.getD 2 []) ".hpp".toList
    let cpp_sources := get_files fs (argv.getD 3 []) ".cpp".toList
    let cpp_tests :=
      if 4 < argv.length then get_files fs (argv.getD 4 []) ".cpp".toList else []
    (compare_files_report swift_files cpp_headers cpp_sources cpp_tests, 0)

/-! ### Concrete values used by witnesses and counterexamples -/

/-- Demo source file under the first marker, in subdirectory `Foo/Bar`. -/
def demoSwift : List Char := "/r/Sources/NeoSwift/Foo/Bar/GetBlockHeader.swift".toList

/-- Demo header whose base name strictly contains `get_block_header`. -/
def demoHeader : List Char := "/inc/get_block_header_impl.hpp".toList

/-- A source file directly inside the marker directory: its derived
relative directory is the empty string. -/
def directSwift : List Char := "/r/Sources/NeoSwift/Direct.swift".toList

/-- The path used to refute C4: the first marker occurs twice. -/
def doubleMarker : List Char :=
  "/r/Sources/NeoSwift/a/Sources/NeoSwift/b/F.swift".toList

/-- A file system with no directories at all. -/
def fsNone : FileSystem := ⟨fun _ => false, fun _ => [], fun _ _ => rfl⟩

/-! ### Evaluated checks of the embedding on concrete inputs -/

example : camelToSnake "NeoCpp".toList = "neo_cpp".toList := by decide
example : camelToSnake "getTXHash".toList = "get_tx_hash".toList := by decide
example : camelToSnake "aBcDe".toList = "a_bc_de".toList := by decide
example : camelToSnake "NEOGetVersion".toList = "neo_get_version".toList := by decide
example : specSnake "aBcDe".toList = "a_bc_de".toList := by decide
example : specSnake "NEOGetVersion".toList = "neo_get_version".toList := by decide
example : sub1 "aBcDe".toList = "a_BcDe".toList := by decide
example : specPassA "aBcDe".toList = "a_Bc_De".toList := by decide

example : basename "a/b/c.swift".toList = "c.swift".toList := by decide
example : dirname "a/b/c".toList = "a/b".toList := by decide
example : dirname "a".toList = "".toList := by decide
example : dirname "/c".toList = "/".toList := by decide
example : dirname "a//b".toList = "a".toList := by decide
example : splitext ".swift".toList = (".swift".toList, "".toList) := by decide
example : splitext "a.b.c".toList = ("a.b".toList, ".c".toList) := by decide
example : splitext "..".toList = ("..".toList, "".toList) := by decide
example : splitext "GetBlockHeader.swift".toList
    = ("GetBlockHeader".toList, ".swift".toList) := by decide
example : isSubstr "bc".toList "abcd".toList = true := by decide
example : isSubstr "".toList "abcd".toList = true := by decide
example : isSubstr "ac".toList "abcd".toList = false := by decide
example : pySplit "aa".toList "aaa".toList = ["".toList, "a".toList] := by decide
example : pySplit "/S/".toList "x/S/y/S/z".toList
    = ["x".toList, "y".toList, "z".toList] := by decide

example : swift_to_cpp_name "/r/Sources/NeoSwift/Foo/Bar/GetBlockHeader.swift".toList
    = some ("Foo/Bar".toList, "get_block_header".toList) := by decide
example : swift_to_cpp_name "/r/Other/GetBlockHeader.swift".toList = none := by decide
example : swift_to_cpp_name "/r/Tests/Sub/FooTests.swift".toList
    = some ("Sub".toList, "foo_tests".toList) := by decide

lemma length_dropWhile_le' (p : Char → Bool) (l : List Char) :
    (l.dropWhile p).length ≤ l.length := by
  induction l with
  | nil => simp [List.dropWhile]
  | cons c t ih =>
    by_cases h : p c
    · simp [List.dropWhile, h]; omega
    · simp [List.dropWhile, h]

lemma sub1F_irrel : ∀ (fuel fuel' : Nat) (s : List Char),
    s.length ≤ fuel → s.length ≤ fuel' → sub1F fuel s = sub1F fuel' s := by
  intro fuel
  induction fuel with
  | zero =>
    intro fuel' s hs _
    interval_cases hlen : s.length
    · match s, hlen with
      | [], _ =>
        cases fuel' <;> simp [sub1F]
  | succ n ih =>
    intro fuel' s hs hs'
    match s with
    | [] => cases fuel' <;> simp [sub1F]
    | [c] => cases fuel' with
      | zero => simp at hs'
      | succ m => simp [sub1F]
    | c1 :: c2 :: rest =>
      cases fuel' with
      | zero => simp at hs'
      | succ m =>
        simp only [List.length_cons] at hs hs'
        simp only [sub1F]
        by_cases hc : ((c1 != '\n') && asciiUpper c2 && lowerHead rest) = true
        · simp only [hc, if_true]
          have hd := length_dropWhile_le' asciiLower rest
          rw [ih m (rest.dropWhile asciiLower) (by omega) (by omega)]
        · simp only [hc, if_false, Bool.false_eq_true]
          rw [ih m (c2 :: rest) (by simp; omega) (by simp; omega)]

lemma sub1_nil : sub1 [] = [] := rfl

lemma sub1_single (c : Char) : sub1 [c] = [c] := rfl

/-- The fuel-free unfolding equation actually used in proofs. -/
lemma sub1_cons2 (c1 c2 : Char) (rest : List Char) :
    sub1 (c1 :: c2 :: rest) =
      if (c1 != '\n') && asciiUpper c2 && lowerHead rest then
        c1 :: '_' :: c2 :: (rest.takeWhile asciiLower ++ sub1 (rest.dropWhile asciiLower))
      else
        c1 :: sub1 (c2 :: rest) := by
  show sub1F (c1 :: c2 :: rest).length (c1 :: c2 :: rest) = _
  simp only [List.length_cons, sub1F]
  by_cases hc : ((c1 != '\n') && asciiUpper c2 && lowerHead rest) = true
  · simp only [hc, if_true, sub1]
    have hd := length_dropWhile_le' asciiLower rest
    rw [sub1F_irrel (rest.length + 1) (rest.dropWhile asciiLower).length
      (rest.dropWhile asciiLower) (by omega) (by omega)]
  · simp only [hc, if_false, Bool.false_eq_true, sub1]
    rw [sub1F_irrel (rest.length + 1) (c2 :: rest).length (c2 :: rest) (by simp) (by simp)]

/-! ### Shared helper lemmas about the comparison loop -/

lemma compareEntry_eq_some {f : List Char} {d n : List Char}
    (hs : swift_to_cpp_name f = some (d, n)) (hd : d ≠ []) (hn : n ≠ []) :
    compareEntry f = some (d, n) := by
  rw [compareEntry, hs]
  simp [hd, hn]

lemma mem_cf_missing {sfs cands : List (List Char)} {f d n : List Char} :
    (f, d, n) ∈ cf_missing sfs cands ↔
      ∃ a ∈ sfs, (match compareEntry a with
        | none => none
        | some dn =>
          if nameMatches dn.2 cands then none else some (a, dn.1, dn.2)) = some (f, d, n) := by
  rw [cf_missing, List.mem_filterMap]

lemma cf_missing_elem_shape {sfs cands : List (List Char)} {f dd nn : List Char}
    (h : (f, dd, nn) ∈ cf_missing sfs cands) :
    f ∈ sfs ∧ compareEntry f = some (dd, nn) ∧ nameMatches nn cands = false := by
  rw [mem_cf_missing] at h
  obtain ⟨a, ha, hpa⟩ := h
  cases hce : compareEntry a with
  | none => rw [hce] at hpa; simp at hpa
  | some dn =>
    obtain ⟨d1, d2⟩ := dn
    rw [hce] at hpa
    by_cases hm : nameMatches d2 cands
    · simp [hm] at hpa
    · simp only [hm, if_false, Bool.false_eq_true] at hpa
      injection hpa with h
      rw [Prod.mk.injEq, Prod.mk.injEq] at h
      obtain ⟨rfl, rfl, rfl⟩ := h
      exact ⟨ha, hce, by simpa using hm⟩

lemma cf_missing_elem_intro {sfs cands : List (List Char)} {f dd nn : List Char}
    (hf : f ∈ sfs) (hce : compareEntry f = some (dd, nn))
    (hm : nameMatches nn cands = false) :
    (f, dd, nn) ∈ cf_missing sfs cands := by
  rw [mem_cf_missing]
  exact ⟨f, hf, by simp [hce, hm]⟩

/-! ### Claims C6, C7, C10, C3, C2 -/

/-- **C6**: with fewer than 4 entries in the argument vector, the
configurable variant prints exactly the usage line, nothing else, and
exits with status 1 — independently of the file system, so no directory
is scanned. -/
theorem compare_files_usage_exit (argv : List (List Char)) (fs : FileSystem)
    (h : argv.length < 4) : compare_files_main argv fs = ([usageLine], 1) := by
  rw [compare_files_main, if_pos h]

theorem compare_files_usage_exit_witness :
    ([] : List (List Char)).length < 4 ∧ compare_files_main [] fsNone = ([usageLine], 1) :=
  ⟨by decide, compare_files_usage_exit [] fsNone (by decide)⟩

/-- **C7, counterexample**: with a file system in which the configured
root does not exist, the scan returns the empty list and the program
runs to completion with exit status 0 — there is no propagating
file-system error and no abnormal termination, contrary to the claim. -/
theorem get_files_missing_root_cx :
    fsNone.exists_dir "/missing".toList = false
      ∧ get_files fsNone "/missing".toList ".swift".toList = []
      ∧ (compare_files_main
          ["p".toList, "/missing".toList, "/i".toList, "/s".toList] fsNone).2 = 0 := by
  refine ⟨rfl, rfl, rfl⟩

/-- **C7, amended**: when a root directory is missing or unreadable,
`os.walk` (default `onerror=None`) swallows the error and yields
nothing, so `get_files` returns the empty list and the program
continues normally: whenever at least 4 arguments are supplied the run
completes with exit status 0. -/
theorem get_files_missing_root_empty :
    (∀ (fs : FileSystem) (d ext : List Char),
        fs.exists_dir d = false → get_files fs d ext = [])
      ∧ (∀ (fs : FileSystem) (argv : List (List Char)),
        4 ≤ argv.length → (compare_files_main argv fs).2 = 0) := by
  constructor
  · intro fs d ext h
    rw [get_files, fs.walk_missing d h]
    rfl
  · intro fs argv h
    rw [compare_files_main, if_neg (by omega)]

theorem get_files_missing_root_empty_witness :
    get_files fsNone "/missing".toList ".swift".toList = []
      ∧ (compare_files_main
          ["p".toList, "/a".toList, "/b".toList, "/c".toList] fsNone).2 = 0 :=
  ⟨get_files_missing_root_empty.1 fsNone "/missing".toList ".swift".toList rfl,
    get_files_missing_root_empty.2 fsNone
      ["p".toList, "/a".toList, "/b".toList, "/c".toList] (by decide)⟩

/-- **C10**: a source file whose path contains a recognized marker but
whose derived relative directory is the empty string is skipped by the
loop guard of `compare_files.main`: it appears in neither missing list,
whatever the candidate lists are. -/
theorem cf_marker_dir_empty_skipped (sfs cands : List (List Char))
    (f d n : List Char) (hs : swift_to_cpp_name f = some (d, n)) (hd : d = []) :
    ∀ dd nn, ¬ ((f, dd, nn) ∈ cf_missing sfs cands) := by
  intro dd nn hmem
  obtain ⟨-, hce, -⟩ := cf_missing_elem_shape hmem
  rw [compareEntry] at hce
  simp only [hs] at hce
  rw [if_pos (Or.inl hd)] at hce
  exact Option.noConfusion hce

theorem cf_marker_dir_empty_skipped_witness :
    swift_to_cpp_name directSwift = some ([], "direct".toList)
      ∧ ¬ ((directSwift, [], "direct".toList) ∈ cf_missing [directSwift] []) :=
  ⟨by decide,
    cf_marker_dir_empty_skipped [directSwift] [] directSwift [] "direct".toList
      (by decide) rfl [] "direct".toList⟩

/-- **C3, counterexample**: `directSwift` contains the first marker, so
by the claim it is not excluded and (with no candidate files at all) it
should be reported missing; the code nevertheless excludes it, because
its derived relative directory is the empty string. -/
theorem cf_exclusion_not_marker_only_cx :
    isSubstr marker1 directSwift = true
      ∧ cf_missing [directSwift] [] = []
      ∧ cf_missing [directSwift] ["x.cpp".toList] = [] := by
  refine ⟨by decide, by decide, by decide⟩

/-- **C3, amended**: a scanned source file is excluded from both
missing-files accumulations (for every state of the candidate trees) if
and only if its path contains neither marker, **or** its derived
relative directory or canonical name is the empty string; and the
printed total source-file count is the length of the raw scan result,
before any filtering. -/
theorem cf_exclusion_characterization :
    (∀ f : List Char,
      (∀ sfs cands dd nn, ¬ ((f, dd, nn) ∈ cf_missing sfs cands)) ↔
        ((isSubstr marker1 f = false ∧ isSubstr marker2 f = false)
          ∨ (∃ d n, swift_to_cpp_name f = some (d, n) ∧ (d = [] ∨ n = []))))
      ∧ (∀ sfs ch cs ct, (compare_files_report sfs ch cs ct).getD 0 []
          = "Total Swift files: ".toList ++ natStr sfs.length) := by
  constructor
  · intro f
    constructor
    · intro hexcl
      by_cases h1 : isSubstr marker1 f = true
      · have hdn : swift_to_cpp_name f
            = some (dirname ((pySplit marker1 f).getD 1 []),
                camelToSnake (splitext (basename f)).1) := by
          rw [swift_to_cpp_name, if_pos h1]
        by_cases hguard : dirname ((pySplit marker1 f).getD 1 []) = []
            ∨ camelToSnake (splitext (basename f)).1 = []
        · exact Or.inr ⟨_, _, hdn, hguard⟩
        · exfalso
          push_neg at hguard
          have hce := compareEntry_eq_some hdn hguard.1 hguard.2
          exact hexcl [f] [] _ _
            (cf_missing_elem_intro (List.mem_singleton_self f) hce rfl)
      · by_cases h2 : isSubstr marker2 f = true
        · have hdn : swift_to_cpp_name f
              = some (dirname ((pySplit marker2 f).getD 1 []),
                  camelToSnake (splitext (basename f)).1) := by
            rw [swift_to_cpp_name, if_neg h1, if_pos h2]
          by_cases hguard : dirname ((pySplit marker2 f).getD 1 []) = []
              ∨ camelToSnake (splitext (basename f)).1 = []
          · exact Or.inr ⟨_, _, hdn, hguard⟩
          · exfalso
            push_neg at hguard
            have hce := compareEntry_eq_some hdn hguard.1 hguard.2
            exact hexcl [f] [] _ _
              (cf_missing_elem_intro (List.mem_singleton_self f) hce rfl)
        · exact Or.inl ⟨by simpa using h1, by simpa using h2⟩
    · intro hcond sfs cands dd nn hmem
      obtain ⟨-, hce, -⟩ := cf_missing_elem_shape hmem
      rw [compareEntry] at hce
      cases hcond with
      | inl hno =>
        rw [swift_to_cpp_name, if_neg (by simp [hno.1]), if_neg (by simp [hno.2])] at hce
        exact Option.noConfusion hce
      | inr hempty =>
        obtain ⟨d, n, hdn, hde⟩ := hempty
        simp only [hdn] at hce
        rw [if_pos hde] at hce
        exact Option.noConfusion hce
  · intro sfs ch cs ct
    rfl

theorem cf_exclusion_characterization_witness :
    ¬ ((directSwift, [], "direct".toList) ∈
        cf_missing [directSwift] ["a.hpp".toList]) :=
  (cf_exclusion_characterization.1 directSwift).mpr
    (Or.inr ⟨[], "direct".toList, by decide, Or.inl rfl⟩)
    [directSwift] ["a.hpp".toList] [] "direct".toList

/-- **C2**: a processed source file (marker recognized, directory and
name nonempty) lands in a missing list exactly when its canonical name
is a substring of the lowercased base name of no candidate file; in
particular `GetBlockHeader.swift` is not reported missing when a header
named `get_block_header_impl.hpp` exists, by substring containment. -/
theorem cf_missing_iff_no_containment :
    (∀ (sfs cands : List (List Char)) (f d n : List Char),
      swift_to_cpp_name f = some (d, n) → d ≠ [] → n ≠ [] →
      (((f, d, n) ∈ cf_missing sfs cands) ↔
        (f ∈ sfs ∧ ∀ h ∈ cands, isSubstr n (lowerL (basename h)) = false)))
      ∧ swift_to_cpp_name demoSwift
          = some ("Foo/Bar".toList, "get_block_header".toList)
      ∧ isSubstr "get_block_header".toList (lowerL (basename demoHeader)) = true
      ∧ cf_missing [demoSwift] [demoHeader] = [] := by
  refine ⟨?_, by decide, by decide, by decide⟩
  intro sfs cands f d n hs hd hn
  have hce := compareEntry_eq_some hs hd hn
  constructor
  · intro hmem
    obtain ⟨ha, hce', hm⟩ := cf_missing_elem_shape hmem
    refine ⟨ha, ?_⟩
    intro h hh
    rw [nameMatches, List.any_eq_false] at hm
    simpa using hm h hh
  · rintro ⟨hf, hall⟩
    have hm : nameMatches n cands = false := by
      rw [nameMatches, List.any_eq_false]
      intro h hh
      simpa using hall h hh
    exact cf_missing_elem_intro hf hce hm

theorem cf_missing_iff_no_containment_witness :
    ((demoSwift, "Foo/Bar".toList, "get_block_header".toList) ∈
        cf_missing [demoSwift] [demoHeader]) ↔
      (demoSwift ∈ [demoSwift]
        ∧ ∀ h ∈ [demoHeader],
            isSubstr "get_block_header".toList (lowerL (basename h)) = false) :=
  cf_missing_iff_no_containment.1 [demoSwift] [demoHeader] demoSwift
    "Foo/Bar".toList "get_block_header".toList (by decide) (by decide) (by decide)

/-! ### Claim C5: letter case of candidate names -/

lemma char_toNat_inj {c d : Char} (h : c.toNat = d.toNat) : c = d := by
  have hc := Char.ofNat_toNat c
  rw [h, Char.ofNat_toNat d] at hc
  exact hc.symm

lemma toNat_toLower (c : Char) :
    (Char.toLower c).toNat
      = if 65 ≤ c.toNat ∧ c.toNat ≤ 90 then c.toNat + 32 else c.toNat := by
  unfold Char.toLower
  split
  · next h =>
    rw [if_pos (by omega)]
    have hv : Nat.isValidChar (c.toNat + 32) := by
      left
      have := h.2
      omega
    simp [Char.ofNat, hv]
    rfl
  · next h => rw [if_neg (by omega)]

lemma toLower_eq_slash {c : Char} (h : Char.toLower c = '/') : c = '/' := by
  have hn := congrArg Char.toNat h
  rw [toNat_toLower] at hn
  have h47 : ('/' : Char).toNat = 47 := rfl
  rw [h47] at hn
  split at hn
  · omega
  · exact char_toNat_inj (hn.trans h47.symm)

lemma toLower_idem (c : Char) : Char.toLower (Char.toLower c) = Char.toLower c := by
  apply char_toNat_inj
  rw [toNat_toLower (Char.toLower c)]
  rw [if_neg ?hne]
  case hne =>
    rw [toNat_toLower c]
    by_cases h : 65 ≤ c.toNat ∧ c.toNat ≤ 90
    · rw [if_pos h]; omega
    · rw [if_neg h]; omega

lemma basename_map {g : Char → Char} (hg : ∀ c, Char.toLower (g c) = Char.toLower c)
    (l : List Char) : basename (l.map g) = (basename l).map g := by
  have hslash : ∀ c, (g c != '/') = (c != '/') := by
    intro c
    by_cases h : c = '/'
    · subst h
      have : g '/' = '/' := toLower_eq_slash (by rw [hg]; rfl)
      simp [this]
    · have hgc : ¬ g c = '/' := fun hgc => h (toLower_eq_slash (by rw [← hg c, hgc]; rfl))
      rw [Bool.eq_iff_iff, bne_iff_ne, bne_iff_ne]
      exact ⟨fun _ => h, fun _ => hgc⟩
  rw [basename, basename, ← List.map_reverse, List.takeWhile_map]
  have : ((fun c => c != '/') ∘ g) = (fun c => c != '/') := funext fun c => hslash c
  rw [this, List.map_reverse]

lemma lowerL_map {g : Char → Char} (hg : ∀ c, Char.toLower (g c) = Char.toLower c)
    (l : List Char) : lowerL (l.map g) = lowerL l := by
  rw [lowerL, lowerL, List.map_map]
  exact List.map_congr_left fun c _ => hg c

lemma any_congr' {α : Type} {p q : α → Bool} (l : List α)
    (h : ∀ a ∈ l, p a = q a) : l.any p = l.any q := by
  induction l with
  | nil => rfl
  | cons a t ih =>
    rw [List.any_cons, List.any_cons, h a (List.mem_cons_self a t),
      ih fun b hb => h b (List.mem_cons_of_mem a hb)]

/-- **C5, counterexample**: in the fixed-path (name-list) variant the
candidate names keep their original case, so two candidate sets that
agree after lowercasing produce different outcomes: the lowercase
candidate matches, the uppercase one does not, and the file is reported
missing — the claimed case-invariance fails. -/
theorem fm_not_case_invariant_cx :
    lowerL "GET_BLOCK.hpp".toList = lowerL "get_block.hpp".toList
      ∧ fm_missing ["GetBlock.swift".toList] ["get_block.hpp".toList] = []
      ∧ fm_missing ["GetBlock.swift".toList] ["GET_BLOCK.hpp".toList]
          = [("GetBlock.swift".toList, "get_block".toList)] := by
  refine ⟨by decide, by decide, by decide⟩

/-- **C5, amended**: in the configurable variant both sides of the
containment test are lowercased, so its outcome is invariant under any
change of the candidate files' letter case; in the fixed-path name-list
variant the candidate names are compared with their original case, so a
candidate differing only in case from a containing name need not match. -/
theorem cf_match_case_invariant :
    (∀ (name : List Char) (cands : List (List Char)) (g : Char → Char),
      (∀ c, Char.toLower (g c) = Char.toLower c) →
      nameMatches name (cands.map (fun h => h.map g)) = nameMatches name cands)
      ∧ fm_missing ["GetBlock.swift".toList] ["GET_BLOCK.hpp".toList]
          ≠ fm_missing ["GetBlock.swift".toList] ["get_block.hpp".toList] := by
  constructor
  · intro name cands g hg
    rw [nameMatches, nameMatches, List.any_map]
    apply any_congr'
    intro h _
    show isSubstr name (lowerL (basename (h.map g))) = isSubstr name (lowerL (basename h))
    rw [basename_map hg, lowerL_map hg]
  · decide

theorem cf_match_case_invariant_witness :
    nameMatches "neo".toList
        (["NeoBase.hpp".toList].map (fun h => h.map Char.toLower))
      = nameMatches "neo".toList ["NeoBase.hpp".toList] :=
  cf_match_case_invariant.1 "neo".toList ["NeoBase.hpp".toList]
    Char.toLower toLower_idem

/-! ### Claim C9: truncated report of the fixed-path variant -/

lemma enumFrom_map_getD {α β : Type} (d : α) (f : Nat × α → β) :
    ∀ (l : List α) (s : Nat),
      (List.enumFrom s l).map f
        = (List.range l.length).map (fun i => f (s + i, l.getD i d)) := by
  intro l
  induction l with
  | nil => intro s; rfl
  | cons a t ih =>
    intro s
    rw [List.enumFrom_cons, List.map_cons, List.length_cons, List.range_succ_eq_map,
      List.map_cons, List.map_map, ih (s + 1)]
    refine congrArg₂ _ (by simp) ?_
    apply List.map_congr_left
    intro i _
    show f (s + 1 + i, t.getD i d) = f (s + (i + 1), (a :: t).getD (i + 1) d)
    rw [List.getD_cons_succ]
    ring_nf

lemma take_enum_map_getD {α β : Type} (d : α) (f : Nat × α → β) (l : List α) (k : Nat) :
    (l.take k).enum.map f
      = (List.range (min k l.length)).map (fun i => f (i, l.getD i d)) := by
  rw [List.enum, enumFrom_map_getD d f (l.take k) 0, List.length_take]
  apply List.map_congr_left
  intro i hi
  rw [List.mem_range] at hi
  have hik : i < k := lt_of_lt_of_le hi (min_le_left _ _)
  rw [List.getD_eq_getElem?_getD, List.getD_eq_getElem?_getD,
    List.getElem?_take_of_lt hik, Nat.zero_add]

/-- **C9**: the fixed-path variant's report prints, per category, the
entries of the first `min 10 length` positions of the missing list, each
prefixed with its 1-based rank, and ends with a summary line carrying
the *full* lengths of both missing lists; in particular with 12 missing
headers only ranks 1-10 are printed while the total line says 12. -/
theorem find_missing_report_shape :
    (∀ mh ms : List (List Char × List Char),
      find_missing_report mh ms
        = "Top 10 Missing Headers:".toList
            :: ((List.range (min 10 mh.length)).map (fun i =>
              rankLine (i + 1) (mh.getD i ([], [])).1 (mh.getD i ([], [])).2 ".hpp".toList))
          ++ "".toList :: "Top 10 Missing Sources:".toList
            :: ((List.range (min 10 ms.length)).map (fun i =>
              rankLine (i + 1) (ms.getD i ([], [])).1 (ms.getD i ([], [])).2 ".cpp".toList))
          ++ ["".toList,
            "Total: ".toList ++ natStr mh.length ++ " missing headers, ".toList
              ++ natStr ms.length ++ " missing sources".toList])
      ∧ (find_missing_report
            (List.replicate 12 ("A.swift".toList, "a".toList)) []).length = 15
      ∧ (find_missing_report
            (List.replicate 12 ("A.swift".toList, "a".toList)) []).getLast?
          = some "Total: 12 missing headers, 0 missing sources".toList := by
  refine ⟨?_, by decide, by decide⟩
  intro mh ms
  rw [find_missing_report]
  rw [take_enum_map_getD ([], []) _ mh 10, take_enum_map_getD ([], []) _ ms 10]
  rfl

/-! ### Claim C4: the derived relative directory and `split(...)[1]` -/

lemma sep_one_le {sep : List Char} (hsep : sep ≠ []) : 1 ≤ sep.length := by
  cases sep
  · exact absurd rfl hsep
  · simp

lemma splitFirst_some_length {sep : List Char} (hsep : sep ≠ []) :
    ∀ {s b a : List Char}, splitFirst sep s = some (b, a)
      → a.length + sep.length ≤ s.length := by
  intro s
  induction s with
  | nil =>
    intro b a h
    rw [splitFirst] at h
    have hpre : sep.isPrefixOf ([] : List Char) = false := by
      cases hp : sep.isPrefixOf ([] : List Char)
      · rfl
      · exact absurd (List.prefix_nil.mp (List.isPrefixOf_iff_prefix.mp hp)) hsep
    rw [hpre] at h
    simp at h
  | cons c t ih =>
    intro b a h
    rw [splitFirst] at h
    by_cases hp : sep.isPrefixOf (c :: t) = true
    · rw [if_pos hp] at h
      injection h with h
      rw [Prod.mk.injEq] at h
      obtain ⟨-, rfl⟩ := h
      have hle : sep.length ≤ (c :: t).length :=
        (List.isPrefixOf_iff_prefix.mp hp).length_le
      rw [List.length_drop]
      omega
    · rw [if_neg hp] at h
      cases hsf : splitFirst sep t with
      | none => rw [hsf] at h; simp at h
      | some ba =>
        obtain ⟨b', a'⟩ := ba
        rw [hsf] at h
        simp only [Option.map_some'] at h
        injection h with h
        rw [Prod.mk.injEq] at h
        obtain ⟨-, rfl⟩ := h
        have := ih hsf
        simp only [List.length_cons]
        omega

lemma isSubstr_iff_splitFirst (n : List Char) :
    ∀ h : List Char, isSubstr n h = (splitFirst n h).isSome := by
  intro h
  induction h with
  | nil =>
    rw [isSubstr, splitFirst]
    cases hp : n.isPrefixOf ([] : List Char)
    · rw [if_neg Bool.false_ne_true]; rfl
    · rw [if_pos rfl]; rfl
  | cons c t ih =>
    rw [isSubstr, splitFirst]
    cases hp : n.isPrefixOf (c :: t)
    · rw [if_neg Bool.false_ne_true, Bool.false_or, ih]
      cases splitFirst n t <;> rfl
    · rw [if_pos rfl]; rfl

lemma pySplitF_irrel : ∀ (fuel fuel' : Nat) (sep s : List Char), sep ≠ [] →
    s.length < fuel → s.length < fuel' → pySplitF fuel sep s = pySplitF fuel' sep s := by
  intro fuel
  induction fuel with
  | zero => intro fuel' sep s _ hf _; omega
  | succ n ih =>
    intro fuel' sep s hsep hf hf'
    cases fuel' with
    | zero => omega
    | succ m =>
      rw [pySplitF, pySplitF]
      cases hsf : splitFirst sep s with
      | none => rfl
      | some ba =>
        obtain ⟨b, a⟩ := ba
        have hlen := splitFirst_some_length hsep hsf
        have hsep1 := sep_one_le hsep
        show b :: pySplitF n sep a = b :: pySplitF m sep a
        rw [ih m sep a hsep (by omega) (by omega)]

lemma pySplit_cons {sep s b a : List Char} (hsep : sep ≠ [])
    (h : splitFirst sep s = some (b, a)) :
    pySplit sep s = b :: pySplit sep a := by
  have hlen := splitFirst_some_length hsep h
  have hsep1 := sep_one_le hsep
  rw [pySplit, pySplit]
  have hs : 1 ≤ s.length := by omega
  obtain ⟨k, hk⟩ : ∃ k, s.length + 1 = k + 1 := ⟨s.length, rfl⟩
  rw [hk, pySplitF, h]
  show b :: pySplitF k sep a = b :: pySplitF (a.length + 1) sep a
  rw [pySplitF_irrel k (a.length + 1) sep a hsep (by omega) (by omega)]

lemma pySplit_getD_one {sep s : List Char} (hsep : sep ≠ [])
    (h : isSubstr sep s = true) :
    (pySplit sep s).getD 1 [] = betweenFirstTwo sep s := by
  rw [isSubstr_iff_splitFirst] at h
  cases hsf : splitFirst sep s with
  | none => rw [hsf] at h; simp at h
  | some ba =>
    obtain ⟨b, a⟩ := ba
    rw [pySplit_cons hsep hsf]
    rw [betweenFirstTwo, afterFirstOcc, hsf]
    show (pySplit sep a).getD 0 [] = _
    rw [pySplit]
    obtain ⟨k, hk⟩ : ∃ k, a.length + 1 = k + 1 := ⟨a.length, rfl⟩
    rw [hk, pySplitF]
    cases hsf2 : splitFirst sep a with
    | none => rfl
    | some ba2 => rfl

/-- **C4, counterexample**: on a path where the marker occurs twice, the
code's derived relative directory is the empty string (the parent
directory of the portion *between* the two occurrences), while the
parent directory of the portion after the first occurrence — the
claim's formula — is `a/Sources/NeoSwift/b`. -/
theorem cf_rel_dir_not_after_first_cx :
    swift_to_cpp_name doubleMarker = some ([], "f".toList)
      ∧ dirname (afterFirstOcc marker1 doubleMarker) = "a/Sources/NeoSwift/b".toList
      ∧ ([] : List Char) ≠ "a/Sources/NeoSwift/b".toList := by
  refine ⟨by decide, by decide, by decide⟩

/-- **C4, amended**: for every path containing a recognized marker, the
derived relative directory is the parent directory of the portion of
the path strictly *between* the first and second occurrences of the
marker (Python's `split(marker)[1]`); when the marker occurs exactly
once this portion coincides with everything after the first occurrence.
The two markers are checked in a fixed order, the first taking
precedence. -/
theorem cf_rel_dir_between_first_two :
    (∀ p : List Char, isSubstr marker1 p = true →
      swift_to_cpp_name p = some (dirname (betweenFirstTwo marker1 p),
        camelToSnake (splitext (basename p)).1))
      ∧ (∀ p : List Char, isSubstr marker1 p = false → isSubstr marker2 p = true →
        swift_to_cpp_name p = some (dirname (betweenFirstTwo marker2 p),
          camelToSnake (splitext (basename p)).1))
      ∧ (∀ sep p : List Char, isSubstr sep (afterFirstOcc sep p) = false →
        betweenFirstTwo sep p = afterFirstOcc sep p) := by
  refine ⟨?_, ?_, ?_⟩
  · intro p h1
    rw [swift_to_cpp_name, if_pos h1, pySplit_getD_one (by decide) h1]
  · intro p h1 h2
    rw [swift_to_cpp_name, if_neg (by simp [h1]), if_pos h2,
      pySplit_getD_one (by decide) h2]
  · intro sep p h
    rw [isSubstr_iff_splitFirst] at h
    rw [betweenFirstTwo]
    cases hsf : splitFirst sep (afterFirstOcc sep p) with
    | none => rfl
    | some ba => rw [hsf] at h; simp at h

theorem cf_rel_dir_between_first_two_witness :
    swift_to_cpp_name doubleMarker
        = some (dirname (betweenFirstTwo marker1 doubleMarker),
          camelToSnake (splitext (basename doubleMarker)).1)
      ∧ betweenFirstTwo marker2 "/r/Tests/Sub/F.swift".toList
          = afterFirstOcc marker2 "/r/Tests/Sub/F.swift".toList :=
  ⟨cf_rel_dir_between_first_two.1 doubleMarker (by decide),
    cf_rel_dir_between_first_two.2.2 marker2 "/r/Tests/Sub/F.swift".toList (by decide)⟩

/-! ### Character-class facts used for idempotence and the two-pass rule -/

lemma upper_not_lowdigit {c : Char} (h : asciiUpper c = true) :
    asciiLowerDigit c = false := by
  simp only [asciiUpper, Bool.and_eq_true, decide_eq_true_eq] at h
  simp only [asciiLowerDigit, asciiLower, Bool.or_eq_false_iff,
    Bool.and_eq_false_iff, decide_eq_false_iff_not]
  omega

lemma upper_not_lower {c : Char} (h : asciiUpper c = true) :
    asciiLower c = false := by
  simp only [asciiUpper, Bool.and_eq_true, decide_eq_true_eq] at h
  simp only [asciiLower, Bool.and_eq_false_iff, decide_eq_false_iff_not]
  omega

lemma lower_lowdigit {c : Char} (h : asciiLower c = true) :
    asciiLowerDigit c = true := by
  rw [asciiLowerDigit, h, Bool.true_or]

lemma lower_ne_nl {c : Char} (h : asciiLower c = true) : (c != '\n') = true := by
  rw [bne_iff_ne]
  rintro rfl
  exact absurd h (by decide)

lemma asciiUpper_toLower (c : Char) : asciiUpper (Char.toLower c) = false := by
  simp only [asciiUpper]
  rw [toNat_toLower]
  by_cases h : 65 ≤ c.toNat ∧ c.toNat ≤ 90
  · rw [if_pos h]
    simp only [Bool.and_eq_false_iff, decide_eq_false_iff_not]
    omega
  · rw [if_neg h]
    simp only [Bool.and_eq_false_iff, decide_eq_false_iff_not]
    omega

/-! ### The second pass equals its declarative reading -/

lemma insB_cons_notLowDigit {c : Char} (h : asciiLowerDigit c = false)
    (xs : List Char) : insB (c :: xs) = c :: insB xs := by
  cases xs with
  | nil => rfl
  | cons x t =>
    show (if asciiLowerDigit c && asciiUpper x then [c, '_'] else [c]) ++ insB (x :: t)
      = c :: insB (x :: t)
    rw [if_neg (by simp [h])]
    rfl

lemma insB_cons_of_lowerHead {c : Char} {xs : List Char}
    (h : lowerHead xs = true) : insB (c :: xs) = c :: insB xs := by
  cases xs with
  | nil => rfl
  | cons x t =>
    show (if asciiLowerDigit c && asciiUpper x then [c, '_'] else [c]) ++ insB (x :: t)
      = c :: insB (x :: t)
    have hx : asciiUpper x = false := by
      have hl : asciiLower x = true := h
      cases hu : asciiUpper x
      · rfl
      · rw [upper_not_lower hu] at hl
        exact absurd hl (by simp)
    rw [if_neg (by simp [hx])]
    rfl

lemma sub2_eq_insB : ∀ s : List Char, sub2 s = insB s := by
  have H : ∀ (n : Nat) (s : List Char), s.length ≤ n → sub2 s = insB s := by
    intro n
    induction n with
    | zero =>
      intro s hs
      cases s with
      | nil => rfl
      | cons a t => simp at hs
    | succ n ih =>
      intro s hs
      match s with
      | [] => rfl
      | [c] => rfl
      | c1 :: c2 :: rest =>
        simp only [List.length_cons] at hs
        show (if asciiLowerDigit c1 && asciiUpper c2 then c1 :: '_' :: c2 :: sub2 rest
            else c1 :: sub2 (c2 :: rest))
          = (if asciiLowerDigit c1 && asciiUpper c2 then [c1, '_'] else [c1])
            ++ insB (c2 :: rest)
        by_cases hc : (asciiLowerDigit c1 && asciiUpper c2) = true
        · rw [if_pos hc, if_pos hc]
          have hu : asciiUpper c2 = true := by
            have hc' := hc
            simp only [Bool.and_eq_true] at hc'
            exact hc'.2
          rw [insB_cons_notLowDigit (upper_not_lowdigit hu),
            ih rest (by omega)]
          rfl
        · rw [if_neg hc, if_neg hc, ih (c2 :: rest) (by simp; omega)]
          rfl
  intro s
  exact H s.length s le_rfl

/-! ### Claim C8: idempotence of the canonical-name transform -/

lemma sub1_no_upper : ∀ {s : List Char},
    (∀ c ∈ s, asciiUpper c = false) → sub1 s = s := by
  intro s
  induction s with
  | nil => intro _; rfl
  | cons c1 t ih =>
    intro h
    cases t with
    | nil => rfl
    | cons c2 rest =>
      rw [sub1_cons2]
      have h2 : asciiUpper c2 = false := h c2 (by simp)
      rw [if_neg (by simp [h2]), ih fun c hc => h c (List.mem_cons_of_mem c1 hc)]

lemma insB_no_upper : ∀ {s : List Char},
    (∀ c ∈ s, asciiUpper c = false) → insB s = s := by
  intro s
  induction s with
  | nil => intro _; rfl
  | cons c1 t ih =>
    intro h
    cases t with
    | nil => rfl
    | cons c2 rest =>
      show (if asciiLowerDigit c1 && asciiUpper c2 then [c1, '_'] else [c1])
          ++ insB (c2 :: rest) = c1 :: c2 :: rest
      have h2 : asciiUpper c2 = false := h c2 (by simp)
      rw [if_neg (by simp [h2]), ih fun c hc => h c (List.mem_cons_of_mem c1 hc)]
      rfl

lemma lowerL_no_upper {s : List Char} : ∀ c ∈ lowerL s, asciiUpper c = false := by
  intro c hc
  rw [lowerL] at hc
  obtain ⟨a, -, rfl⟩ := List.mem_map.mp hc
  exact asciiUpper_toLower a

lemma lowerL_idem (s : List Char) : lowerL (lowerL s) = lowerL s := by
  rw [lowerL, lowerL, List.map_map]
  exact List.map_congr_left fun c _ => toLower_idem c

/-! ### Claim C1: the scanning passes versus their declarative reading -/

lemma sub1_head (c : Char) (t : List Char) : ∃ u, sub1 (c :: t) = c :: u := by
  cases t with
  | nil => exact ⟨[], rfl⟩
  | cons c2 rest =>
    rw [sub1_cons2]
    by_cases hc : ((c != '\n') && asciiUpper c2 && lowerHead rest) = true
    · rw [if_pos hc]; exact ⟨_, rfl⟩
    · rw [if_neg hc]; exact ⟨_, rfl⟩

lemma specPassA_head (c : Char) (t : List Char) : ∃ u, specPassA (c :: t) = c :: u := by
  cases t with
  | nil => exact ⟨[], rfl⟩
  | cons c2 rest =>
    show ∃ u, (if (c != '\n') && asciiUpper c2 && lowerHead rest then [c, '_'] else [c])
      ++ specPassA (c2 :: rest) = c :: u
    by_cases hc : ((c != '\n') && asciiUpper c2 && lowerHead rest) = true
    · rw [if_pos hc]; exact ⟨_, rfl⟩
    · rw [if_neg hc]; exact ⟨_, rfl⟩

lemma not_upper_of_lower {c : Char} (h : asciiLower c = true) :
    asciiUpper c = false := by
  cases hu : asciiUpper c
  · rfl
  · rw [upper_not_lower hu] at h
    exact absurd h (by simp)

lemma specPassA_cons_of_lowerHead {c : Char} {xs : List Char}
    (h : lowerHead xs = true) : specPassA (c :: xs) = c :: specPassA xs := by
  cases xs with
  | nil => rfl
  | cons x t =>
    show (if (c != '\n') && asciiUpper x && lowerHead t then [c, '_'] else [c])
      ++ specPassA (x :: t) = c :: specPassA (x :: t)
    have hx : asciiUpper x = false := not_upper_of_lower h
    rw [if_neg (by simp [hx])]
    rfl

lemma lowerHead_dropWhile (l : List Char) :
    lowerHead (l.dropWhile asciiLower) = false := by
  induction l with
  | nil => rfl
  | cons c t ih =>
    rw [List.dropWhile_cons]
    by_cases hc : asciiLower c = true
    · rw [if_pos hc]; exact ih
    · rw [if_neg hc]
      show asciiLower c = false
      exact Bool.eq_false_iff.mpr hc

lemma takeWhile_lower_ne_nil {l : List Char} (h : lowerHead l = true) :
    l.takeWhile asciiLower ≠ [] := by
  cases l with
  | nil => exact absurd h (by simp [lowerHead])
  | cons c t =>
    have hc : asciiLower c = true := h
    rw [List.takeWhile_cons, if_pos hc]
    simp

lemma lowerHead_append {low : List Char} (hne : low ≠ [])
    (hall : ∀ c ∈ low, asciiLower c = true) (X : List Char) :
    lowerHead (low ++ X) = true := by
  cases low with
  | nil => exact absurd rfl hne
  | cons l t => exact hall l (by simp)

lemma insB_lower_append : ∀ (low : List Char), low ≠ [] →
    (∀ c ∈ low, asciiLower c = true) → ∀ X : List Char,
    insB (low ++ X) = low ++ insBStep X := by
  intro low
  induction low with
  | nil => intro h; exact absurd rfl h
  | cons l low' ih =>
    intro _ hall X
    cases low' with
    | nil =>
      cases X with
      | nil => rfl
      | cons x xs =>
        have hld : asciiLowerDigit l = true := lower_lowdigit (hall l (by simp))
        show (if asciiLowerDigit l && asciiUpper x then [l, '_'] else [l]) ++ insB (x :: xs)
          = [l] ++ insBStep (x :: xs)
        rw [insBStep]
        rw [hld, Bool.true_and]
        simp only [upperHead]
        by_cases hu : asciiUpper x = true
        · rw [if_pos hu, if_pos hu]; rfl
        · rw [if_neg hu, if_neg hu]
    | cons l2 low'' =>
      have hl2 : asciiLower l2 = true := hall l2 (by simp)
      have hx : asciiUpper l2 = false := not_upper_of_lower hl2
      show (if asciiLowerDigit l && asciiUpper l2 then [l, '_'] else [l])
          ++ insB ((l2 :: low'') ++ X)
        = (l :: l2 :: low'') ++ insBStep X
      rw [if_neg (by simp [hx]),
        ih (by simp) (fun c hc => hall c (List.mem_cons_of_mem l hc)) X]
      rfl

lemma specPassA_lower_append : ∀ (low : List Char), low ≠ [] →
    (∀ c ∈ low, asciiLower c = true) → ∀ R : List Char,
    specPassA (low ++ R) = low ++ passAStep R := by
  intro low
  induction low with
  | nil => intro h; exact absurd rfl h
  | cons l low' ih =>
    intro _ hall R
    cases low' with
    | nil =>
      cases R with
      | nil => rfl
      | cons d tail =>
        show (if (l != '\n') && asciiUpper d && lowerHead tail then [l, '_'] else [l])
            ++ specPassA (d :: tail)
          = [l] ++ passAStep (d :: tail)
        rw [passAStep]
        rw [lower_ne_nl (hall l (by simp)), Bool.true_and]
        simp only [matchHead]
        by_cases hm : (asciiUpper d && lowerHead tail) = true
        · rw [if_pos hm, if_pos hm]; rfl
        · rw [if_neg hm, if_neg hm]
    | cons l2 low'' =>
      have hl2 : asciiLower l2 = true := hall l2 (by simp)
      have hx : asciiUpper l2 = false := not_upper_of_lower hl2
      show (if (l != '\n') && asciiUpper l2 && lowerHead (low'' ++ R)
            then [l, '_'] else [l]) ++ specPassA ((l2 :: low'') ++ R)
        = (l :: l2 :: low'') ++ passAStep R
      rw [if_neg (by simp [hx]),
        ih (by simp) (fun c hc => hall c (List.mem_cons_of_mem l hc)) R]
      rfl

lemma insBStep_tail (d : Char) (tail u1 v1 : List Char)
    (hu1 : sub1 (d :: tail) = d :: u1) (hv1 : specPassA (d :: tail) = d :: v1)
    (hins : insB (sub1 (d :: tail)) = insB (specPassA (d :: tail))) :
    insBStep (sub1 (d :: tail)) = insBStep (passAStep (d :: tail)) := by
  rw [hu1, hv1] at hins
  simp only [insBStep, passAStep, matchHead, hu1, hv1]
  by_cases hUd : asciiUpper d = true
  · by_cases hlt : lowerHead tail = true
    · rw [if_pos (show (asciiUpper d && lowerHead tail) = true by rw [hUd, hlt]; rfl)]
      rw [show upperHead (d :: u1) = asciiUpper d from rfl, if_pos hUd]
      rw [show upperHead ('_' :: d :: v1) = false from rfl, if_neg Bool.false_ne_true]
      rw [insB_cons_notLowDigit (show asciiLowerDigit '_' = false from by decide)]
      rw [hins]
    · have hltf : lowerHead tail = false := Bool.eq_false_iff.mpr hlt
      rw [if_neg (show ¬((asciiUpper d && lowerHead tail) = true) from by
        rw [hltf]; simp)]
      rw [show upperHead (d :: u1) = asciiUpper d from rfl, if_pos hUd]
      rw [show upperHead (d :: v1) = asciiUpper d from rfl, if_pos hUd]
      rw [hins]
  · have hUdf : asciiUpper d = false := Bool.eq_false_iff.mpr hUd
    rw [if_neg (show ¬((asciiUpper d && lowerHead tail) = true) from by
      rw [hUdf]; simp)]
    rw [show upperHead (d :: u1) = asciiUpper d from rfl, if_neg hUd]
    rw [show upperHead (d :: v1) = asciiUpper d from rfl, if_neg hUd]
    exact hins

/-- Core of claim C1: the non-overlapping left-to-right scan of pass
(a) and its declarative all-positions reading agree after pass (b) is
applied on top — the only positions pass (a)'s scan can skip sit right
after a consumed lowercase run, and pass (b) reinserts exactly those
underscores. -/
lemma insB_sub1_eq : ∀ s : List Char, insB (sub1 s) = insB (specPassA s) := by
  have peel : ∀ (c : Char) (T : List Char),
      insB (c :: '_' :: T) = c :: '_' :: insB T := by
    intro c T
    show (if asciiLowerDigit c && asciiUpper '_' then [c, '_'] else [c]) ++ insB ('_' :: T)
      = c :: '_' :: insB T
    rw [if_neg (by simp [show asciiUpper '_' = false from rfl]),
      insB_cons_notLowDigit (show asciiLowerDigit '_' = false from by decide) T]
    rfl
  have H : ∀ (n : Nat) (s : List Char), s.length ≤ n →
      insB (sub1 s) = insB (specPassA s) := by
    intro n
    induction n with
    | zero =>
      intro s hs
      cases s with
      | nil => rfl
      | cons a t => simp at hs
    | succ n ih =>
      intro s hs
      match s with
      | [] => rfl
      | [c] => rfl
      | c1 :: c2 :: rest =>
        simp only [List.length_cons] at hs
        rw [sub1_cons2]
        show insB _ = insB ((if (c1 != '\n') && asciiUpper c2 && lowerHead rest
            then [c1, '_'] else [c1]) ++ specPassA (c2 :: rest))
        by_cases hcond : ((c1 != '\n') && asciiUpper c2 && lowerHead rest) = true
        · rw [if_pos hcond, if_pos hcond]
          have hparts := hcond
          simp only [Bool.and_eq_true] at hparts
          obtain ⟨⟨hnl, hU2⟩, hlh⟩ := hparts
          have hlow_ne := takeWhile_lower_ne_nil hlh
          have hlow_all : ∀ c ∈ rest.takeWhile asciiLower, asciiLower c = true :=
            fun c hc => List.mem_takeWhile_imp hc
          have hsplit : rest.takeWhile asciiLower ++ rest.dropWhile asciiLower = rest :=
            List.takeWhile_append_dropWhile asciiLower rest
          show insB (c1 :: '_' :: (c2 :: (rest.takeWhile asciiLower
              ++ sub1 (rest.dropWhile asciiLower))))
            = insB (c1 :: '_' :: specPassA (c2 :: rest))
          simp only [peel]
          conv_rhs => rw [← hsplit]
          rw [specPassA_cons_of_lowerHead
              (lowerHead_append hlow_ne hlow_all (rest.dropWhile asciiLower)),
            specPassA_lower_append _ hlow_ne hlow_all (rest.dropWhile asciiLower),
            insB_cons_of_lowerHead
              (lowerHead_append hlow_ne hlow_all (sub1 (rest.dropWhile asciiLower))),
            insB_cons_of_lowerHead
              (lowerHead_append hlow_ne hlow_all (passAStep (rest.dropWhile asciiLower))),
            insB_lower_append _ hlow_ne hlow_all (sub1 (rest.dropWhile asciiLower)),
            insB_lower_append _ hlow_ne hlow_all (passAStep (rest.dropWhile asciiLower))]
          have htail : insBStep (sub1 (rest.dropWhile asciiLower))
              = insBStep (passAStep (rest.dropWhile asciiLower)) := by
            cases hrest' : rest.dropWhile asciiLower with
            | nil => rfl
            | cons d tail =>
              have hlen : (d :: tail).length ≤ n := by
                have h1 := length_dropWhile_le' asciiLower rest
                rw [hrest'] at h1
                simp only [List.length_cons] at h1 ⊢
                omega
              obtain ⟨u1, hu1⟩ := sub1_head d tail
              obtain ⟨v1, hv1⟩ := specPassA_head d tail
              exact insBStep_tail d tail u1 v1 hu1 hv1 (ih (d :: tail) hlen)
          rw [htail]
        · rw [if_neg hcond, if_neg hcond]
          obtain ⟨u, hu⟩ := sub1_head c2 rest
          obtain ⟨v, hv⟩ := specPassA_head c2 rest
          have hrec : insB (c2 :: u) = insB (c2 :: v) := by
            rw [← hu, ← hv]
            exact ih (c2 :: rest) (by simp only [List.length_cons]; omega)
          rw [hu, hv]
          show (if asciiLowerDigit c1 && asciiUpper c2 then [c1, '_'] else [c1])
              ++ insB (c2 :: u)
            = (if asciiLowerDigit c1 && asciiUpper c2 then [c1, '_'] else [c1])
              ++ insB (c2 :: v)
          rw [hrec]
  intro s
  exact H s.length s le_rfl

/-- **C1**: the canonical name of a source file base name is obtained by
stripping the extension, then applying pass (a) — an underscore before
every uppercase letter that is followed by one or more lowercase letters
and preceded by any character — then pass (b) — an underscore before
every uppercase letter immediately following a lowercase letter or
digit — then lowercasing (both passes read declaratively over all
positions of their input); in particular "NeoCpp" maps to "neo_cpp" and
"getTXHash" to "get_tx_hash". -/
theorem canonical_name_two_pass :
    (∀ p : List Char, swift_file_to_cpp_name p = specSnake (splitext (basename p)).1)
      ∧ (∀ s : List Char, camelToSnake s = specSnake s)
      ∧ camelToSnake "NeoCpp".toList = "neo_cpp".toList
      ∧ camelToSnake "getTXHash".toList = "get_tx_hash".toList := by
  have hct : ∀ s : List Char, camelToSnake s = specSnake s := by
    intro s
    rw [camelToSnake, specSnake, sub2_eq_insB, insB_sub1_eq]
  exact ⟨fun p => hct ((splitext (basename p)).1), hct, by decide, by decide⟩

/-- **C8**: the camel-case-to-snake-case transform is idempotent —
its output contains no ASCII uppercase letter, so neither `re.sub` pass
matches anywhere on it and lowercasing it again changes nothing. -/
theorem camelToSnake_idempotent :
    ∀ s : List Char, camelToSnake (camelToSnake s) = camelToSnake s := by
  intro s
  have hnu : ∀ c ∈ camelToSnake s, asciiUpper c = false := lowerL_no_upper
  show lowerL (sub2 (sub1 (camelToSnake s))) = camelToSnake s
  rw [sub1_no_upper hnu, sub2_eq_insB, insB_no_upper hnu]
  exact lowerL_idem (sub2 (sub1 s))

end NeoCppAudit
